import Mathlib

/-!
Verification of the artifact path-safety core of `packages/server/lib/util/fs.ts`
(the `ensureSafePath` resolver, the `getPath` name builder and the
`sanitizeToString` helper).

JavaScript strings are modelled as `List Char` (Unicode scalar values; the
inputs of interest contain no lone surrogates).  `String.prototype.length`
(UTF-16 code units) is modelled by `jsLength`; `Buffer.from(s)` /
`buf.toString()` are modelled by a UTF-8 encoder and a WHATWG-style
replacement-character decoder, matching Node's behaviour on the byte slices
produced by the resolver.
-/

set_option maxHeartbeats 1000000
set_option maxRecDepth 100000

namespace CypressFs

/-- A JavaScript string, as a list of Unicode scalar values. -/
abbrev Str := List Char

/-- Number of UTF-16 code units of one scalar value (JS `String.length` counts these). -/
def utf16Width (c : Char) : Nat :=
  if c.toNat < 0x10000 then 1 else 2

/-- JS `String.prototype.length`: number of UTF-16 code units. -/
def jsLength (s : Str) : Nat :=
  (s.map utf16Width).sum

/-- UTF-8 encoding of one Unicode scalar value, as bytes. -/
def charUtf8 (c : Char) : List Nat :=
  if c.toNat < 0x80 then [c.toNat]
  else if c.toNat < 0x800 then [0xC0 + c.toNat / 64, 0x80 + c.toNat % 64]
  else if c.toNat < 0x10000 then
    [0xE0 + c.toNat / 4096, 0x80 + c.toNat / 64 % 64, 0x80 + c.toNat % 64]
  else
    [0xF0 + c.toNat / 262144, 0x80 + c.toNat / 4096 % 64, 0x80 + c.toNat / 64 % 64,
      0x80 + c.toNat % 64]

/-- UTF-8 encoding of a string (Node `Buffer.from(s)` with the default encoding). -/
def utf8Encode (s : Str) : List Nat :=
  s.flatMap charUtf8

/-- Byte length of a string in UTF-8 (Node `Buffer.from(s).byteLength`). -/
def utf8Len (s : Str) : Nat :=
  (utf8Encode s).length

/-- The Unicode replacement character U+FFFD. -/
def replChar : Char := '�'

/-- Is `b` a UTF-8 continuation byte? -/
def isCont (b : Nat) : Prop := 0x80 ≤ b ∧ b ≤ 0xBF

instance (b : Nat) : Decidable (isCont b) := by unfold isCont; infer_instance

/-- Valid range for the first continuation byte of a three-byte sequence
(the WHATWG decoder tightens it for lead bytes 0xE0 and 0xED). -/
def isCont3 (lead b : Nat) : Prop :=
  if lead = 0xE0 then 0xA0 ≤ b ∧ b ≤ 0xBF
  else if lead = 0xED then 0x80 ≤ b ∧ b ≤ 0x9F
  else isCont b

instance (lead b : Nat) : Decidable (isCont3 lead b) := by unfold isCont3; infer_instance

/-- Valid range for the first continuation byte of a four-byte sequence
(the WHATWG decoder tightens it for lead bytes 0xF0 and 0xF4). -/
def isCont4 (lead b : Nat) : Prop :=
  if lead = 0xF0 then 0x90 ≤ b ∧ b ≤ 0xBF
  else if lead = 0xF4 then 0x80 ≤ b ∧ b ≤ 0x8F
  else isCont b

instance (lead b : Nat) : Decidable (isCont4 lead b) := by unfold isCont4; infer_instance

/-- WHATWG-style UTF-8 decoding with U+FFFD replacement for ill-formed input
(Node `buf.toString()`): a maximal ill-formed subpart yields one replacement
character and decoding resumes at the first unconsumed byte. -/
def decodeUtf8 : List Nat → Str
  | [] => []
  | b :: rest =>
    if b < 0x80 then Char.ofNat b :: decodeUtf8 rest
    else if 0xC2 ≤ b ∧ b ≤ 0xDF then
      match rest with
      | [] => [replChar]
      | c1 :: r1 =>
        if isCont c1 then
          Char.ofNat ((b - 0xC0) * 64 + (c1 - 0x80)) :: decodeUtf8 r1
        else replChar :: decodeUtf8 (c1 :: r1)
    else if 0xE0 ≤ b ∧ b ≤ 0xEF then
      match rest with
      | [] => [replChar]
      | c1 :: r1 =>
        if isCont3 b c1 then
          match r1 with
          | [] => [replChar]
          | c2 :: r2 =>
            if isCont c2 then
              Char.ofNat ((b - 0xE0) * 4096 + (c1 - 0x80) * 64 + (c2 - 0x80)) :: decodeUtf8 r2
            else replChar :: decodeUtf8 (c2 :: r2)
        else replChar :: decodeUtf8 (c1 :: r1)
    else if 0xF0 ≤ b ∧ b ≤ 0xF4 then
      match rest with
      | [] => [replChar]
      | c1 :: r1 =>
        if isCont4 b c1 then
          match r1 with
          | [] => [replChar]
          | c2 :: r2 =>
            if isCont c2 then
              match r2 with
              | [] => [replChar]
              | c3 :: r3 =>
                if isCont c3 then
                  Char.ofNat ((b - 0xF0) * 262144 + (c1 - 0x80) * 4096
                    + (c2 - 0x80) * 64 + (c3 - 0x80)) :: decodeUtf8 r3
                else replChar :: decodeUtf8 (c3 :: r3)
            else replChar :: decodeUtf8 (c2 :: r2)
        else replChar :: decodeUtf8 (c1 :: r1)
    else replChar :: decodeUtf8 rest

/-- Decimal digit character for `n < 10`. -/
def digitChar (n : Nat) : Char := Char.ofNat (48 + n)

/-- Fuel-driven digit expansion (structural, so the kernel can evaluate it). -/
def natDigitsAux : Nat → Nat → Str
  | 0, _ => []
  | fuel + 1, n =>
    if n < 10 then [digitChar n] else natDigitsAux fuel (n / 10) ++ [digitChar (n % 10)]

/-- Decimal representation of a natural number (JS number-to-string on a
non-negative integer); `n` itself always exceeds its digit count as fuel. -/
def natDigits (n : Nat) : Str := natDigitsAux (n + 1) n

theorem natDigitsAux_fuel (n : Nat) : ∀ f1 f2, n < f1 → n < f2 →
    natDigitsAux f1 n = natDigitsAux f2 n := by
  induction n using Nat.strong_induction_on with
  | _ n ih =>
    intro f1 f2 h1 h2
    obtain ⟨g1, rfl⟩ : ∃ g, f1 = g + 1 := ⟨f1 - 1, by omega⟩
    obtain ⟨g2, rfl⟩ : ∃ g, f2 = g + 1 := ⟨f2 - 1, by omega⟩
    show (if n < 10 then [digitChar n] else natDigitsAux g1 (n / 10) ++ [digitChar (n % 10)])
      = (if n < 10 then [digitChar n] else natDigitsAux g2 (n / 10) ++ [digitChar (n % 10)])
    by_cases h : n < 10
    · rw [if_pos h, if_pos h]
    · rw [if_neg h, if_neg h]
      have hlt : n / 10 < n := Nat.div_lt_self (by omega) (by omega)
      rw [ih (n / 10) hlt g1 g2 (by omega) (by omega)]

/-- The recursion equation of `natDigits`. -/
theorem natDigits_eq (n : Nat) :
    natDigits n = if n < 10 then [digitChar n]
      else natDigits (n / 10) ++ [digitChar (n % 10)] := by
  show (if n < 10 then [digitChar n] else natDigitsAux n (n / 10) ++ [digitChar (n % 10)])
    = _
  by_cases h : n < 10
  · rw [if_pos h, if_pos h]
  · rw [if_neg h, if_neg h]
    have hlt : n / 10 < n := Nat.div_lt_self (by omega) (by omega)
    rw [natDigitsAux_fuel (n / 10) n (n / 10 + 1) hlt (by omega)]
    rfl

/-- Value of a decimal digit string (0 for non-digits; used only to read back
indices written by `natDigits`). -/
def digitsVal (s : Str) : Nat :=
  s.foldl (fun acc c => acc * 10 + (c.toNat - 48)) 0

/-- JS number-to-string for integers (lodash stringifies numbers this way). -/
def intStr (n : Int) : Str :=
  if n < 0 then '-' :: natDigits n.natAbs else natDigits n.natAbs

/-- Is `c` one of the path-separator characters of `pathSeparatorRe`
(`/[\\\/]/g`)? -/
def isSep (c : Char) : Prop := c = '/' ∨ c = '\\'

instance (c : Char) : Decidable (isSep c) := by unfold isSep; infer_instance

/-- JS `String.prototype.split` on `pathSeparatorRe`: split at every `/` or
`\`; an empty string yields `[""]` and adjacent separators yield empty pieces. -/
def splitSep : Str → List Str
  | [] => [[]]
  | c :: rest =>
    match splitSep rest with
    | [] => [[]]
    | h :: t => if isSep c then [] :: h :: t else (c :: h) :: t

/-- Join a list of strings with a separator (lodash `_.join`). -/
def joinList (sep : Str) : List Str → Str
  | [] => []
  | [x] => x
  | x :: y :: t => x ++ sep ++ joinList sep (y :: t)

/-- Node `path.join` on POSIX, restricted to the segments this code produces:
empty segments are dropped and the rest are joined with `/`; joining nothing
gives `"."`.  (Normalization of `.`/`..` segments is not modelled; the
resolver never feeds them in.  Path utilities are external collaborators
assumed correct by the spec.) -/
def pathJoin (segs : List Str) : Str :=
  match segs.filter (fun s => !s.isEmpty) with
  | [] => ['.']
  | h :: t => joinList ['/'] (h :: t)

/-- Node `path.basename` for paths without trailing separators (the only
paths the resolver builds): everything after the last `/`. -/
def basename (p : Str) : Str :=
  (p.reverse.takeWhile (fun c => c ≠ '/')).reverse

/-- The leading part of `p` up to and including its last `/` (empty when `p`
has no separator). -/
def dirPart (p : Str) : Str :=
  (p.reverse.dropWhile (fun c => c ≠ '/')).reverse

/-- `path.join(path.dirname(withoutExt), truncated)` for the normalized,
non-trailing-slash paths the resolver handles: the directory part (with its
trailing `/`) followed by the truncated basename. -/
def rebuild (p t : Str) : Str :=
  dirPart p ++ t

/-- `Buffer.prototype.slice(0, end)`: a negative `end` counts from the end of
the buffer (clamped at 0), a large `end` is clamped to the length. -/
def bufSlice (bytes : List Nat) (e : Int) : List Nat :=
  bytes.take (if e < 0 then bytes.length - (-e).toNat else e.toNat)

/-- A JavaScript value passed as a test title (titles may be non-strings such
as `null` or `undefined`). -/
inductive JsVal where
  | str (s : Str)
  | num (n : Int)
  | null
  | undef
deriving DecidableEq

/-- lodash `_.toString`: `null`/`undefined` become the empty string, numbers
their decimal representation. -/
def jsToString : JsVal → Str
  | .str s => s
  | .num n => intStr n
  | .null => []
  | .undef => []

/-- Characters removed by the `sanitize-filename` collaborator: the illegal
set `/ ? < > \ : * | "` together with C0 and C1 control characters. -/
def unsafeChar (c : Char) : Prop :=
  c = '/' ∨ c = '?' ∨ c = '<' ∨ c = '>' ∨ c = '\\' ∨ c = ':' ∨ c = '*'
    ∨ c = '|' ∨ c = '"' ∨ c.toNat ≤ 0x1f ∨ (0x80 ≤ c.toNat ∧ c.toNat ≤ 0x9f)

instance (c : Char) : Decidable (unsafeChar c) := by unfold unsafeChar; infer_instance

/-- Modelled from the spec: the external `sanitize-filename` collaborator
(its source is not part of this repository).  "Unsafe characters
replaced/removed" — every unsafe filesystem character is removed; the
library's reserved-name and byte-length handling is not exercised by any
claim and is omitted. -/
def sanitize (s : Str) : Str :=
  s.filter (fun c => !decide (unsafeChar c))

/-- `sanitizeToString` from the source: stringify (titles may be `null` or
`undefined`), then sanitize. -/
def sanitizeToString (title : JsVal) : Str :=
  sanitize (jsToString title)

/-! ## The SafePathResolver (`ensureSafePath`) -/

/-- The duplicate-index marker `` ` (${num})` ``. -/
def markerStr (num : Nat) : Str :=
  ' ' :: '(' :: natDigits num ++ [')']

/-- The suffix `` `${(num && !overwrite) ? ` (${num})` : ''}.${extension}` ``:
the duplicate-index marker appears only when `num` is truthy (non-zero) and
overwrite is off. -/
def suffixFor (num : Nat) (extension : Str) (overwrite : Bool) : Str :=
  (if num ≠ 0 ∧ overwrite = false then markerStr num else []) ++ '.' :: extension

/-- `MIN_PREFIX_BYTES` from the source. -/
def MIN_PREFIX_BYTES : Int := 64

/-- The error code Node reports for over-long filenames. -/
def ntlCode : Str := "ENAMETOOLONG".data

/-- `maxSafePrefixBytes = maxSafeBytes - suffix.length` (JS `-` on the
UTF-16 length; may be negative, hence `Int`). -/
def maxSafePrefixBytes (budget : Nat) (extension : Str) (overwrite : Bool) (num : Nat) : Int :=
  (budget : Int) - jsLength (suffixFor num extension overwrite)

/-- The truncation step of `ensureSafePath`: when the basename of
`withoutExt` has more bytes than `maxSafePrefixBytes`, slice its UTF-8 buffer
to that many raw bytes, decode the slice back to a string as Node does, and
rebuild the path; otherwise leave `withoutExt` alone. -/
def truncTo (budget : Nat) (withoutExt extension : Str) (overwrite : Bool) (num : Nat) : Str :=
  if maxSafePrefixBytes budget extension overwrite num < (utf8Len (basename withoutExt) : Int)
  then
    rebuild withoutExt
      (decodeUtf8 (bufSlice (utf8Encode (basename withoutExt))
        (maxSafePrefixBytes budget extension overwrite num)))
  else withoutExt

/-- One candidate computation of `ensureSafePath`: build the suffix, truncate
the basename (see `truncTo`), and return the updated `withoutExt` together
with `fullPath = [withoutExt, suffix].join('')`. -/
def resolveStep (budget : Nat) (withoutExt extension : Str) (overwrite : Bool) (num : Nat) :
    Str × Str :=
  (truncTo budget withoutExt extension overwrite num,
   truncTo budget withoutExt extension overwrite num ++ suffixFor num extension overwrite)

/-- The filesystem and process state the resolver touches: the set of
existing files with their contents, and the process-wide `maxSafeBytes`
length budget (initially 254). -/
structure Sys where
  files : List (Str × Str)
  maxSafeBytes : Nat
deriving DecidableEq

/-- `fs.pathExists`. -/
def pathExistsB (files : List (Str × Str)) (p : Str) : Bool :=
  files.any (fun pr => pr.1 == p)

/-- `fs.outputFile(fullPath, '')`: create an empty file (or overwrite an
existing one with empty content). -/
def outputFile (files : List (Str × Str)) (p : Str) : List (Str × Str) :=
  if pathExistsB files p then
    files.map (fun pr => if pr.1 == p then (pr.1, ([] : Str)) else pr)
  else files ++ [(p, ([] : Str))]

/-- The create-attempt collaborator: `none` means `fs.outputFile` succeeds at
that path, `some code` that it fails with `err.code = code`.  Its response is
a function of the attempted path. -/
abbrev Oracle := Str → Option Str

instance : DecidableEq (Except Str Str) := fun a b =>
  match a, b with
  | Except.ok x, Except.ok y =>
    if h : x = y then isTrue (by rw [h]) else isFalse (fun hc => by cases hc; exact h rfl)
  | Except.error x, Except.error y =>
    if h : x = y then isTrue (by rw [h]) else isFalse (fun hc => by cases hc; exact h rfl)
  | Except.ok _, Except.error _ => isFalse (fun hc => by cases hc)
  | Except.error _, Except.ok _ => isFalse (fun hc => by cases hc)

/-- `ensureSafePath` from the source, with the I/O collaborators made
explicit and the recursion driven by fuel (`none` = fuel exhausted):

* build `suffix` and truncate the basename (see `resolveStep`);
* if `fullPath` exists and overwrite is off, retry with `num + 1`;
* otherwise attempt to create an empty file there: on success return
  `fullPath`; on `ENAMETOOLONG` with `maxSafePrefixBytes >= MIN_PREFIX_BYTES`
  decrement the global `maxSafeBytes` and retry with the same `num`; on any
  other failure propagate the error code. -/
def ensureSafePath (oracle : Oracle) (withoutExt extension : Str) (overwrite : Bool)
    (num : Nat) (sys : Sys) (fuel : Nat) : Option (Except Str Str × Sys) :=
  match fuel with
  | 0 => none
  | fuel + 1 =>
    let w := (resolveStep sys.maxSafeBytes withoutExt extension overwrite num).1
    let fullPath := (resolveStep sys.maxSafeBytes withoutExt extension overwrite num).2
    if pathExistsB sys.files fullPath = true ∧ overwrite = false then
      ensureSafePath oracle w extension overwrite (num + 1) sys fuel
    else
      match oracle fullPath with
      | none => some (Except.ok fullPath, ⟨outputFile sys.files fullPath, sys.maxSafeBytes⟩)
      | some code =>
        if code = ntlCode ∧ MIN_PREFIX_BYTES ≤ maxSafePrefixBytes sys.maxSafeBytes extension overwrite num then
          ensureSafePath oracle w extension overwrite num ⟨sys.files, sys.maxSafeBytes - 1⟩ fuel
        else some (Except.error code, sys)

/-- Ghost observer: the number of `ENAMETOOLONG` recoveries (budget
decrements) a run of `ensureSafePath` performs, by the same recursion. -/
def ntlCount (oracle : Oracle) (withoutExt extension : Str) (overwrite : Bool)
    (num : Nat) (sys : Sys) (fuel : Nat) : Nat :=
  match fuel with
  | 0 => 0
  | fuel + 1 =>
    let w := (resolveStep sys.maxSafeBytes withoutExt extension overwrite num).1
    let fullPath := (resolveStep sys.maxSafeBytes withoutExt extension overwrite num).2
    if pathExistsB sys.files fullPath = true ∧ overwrite = false then
      ntlCount oracle w extension overwrite (num + 1) sys fuel
    else
      match oracle fullPath with
      | none => 0
      | some code =>
        if code = ntlCode ∧ MIN_PREFIX_BYTES ≤ maxSafePrefixBytes sys.maxSafeBytes extension overwrite num then
          ntlCount oracle w extension overwrite num ⟨sys.files, sys.maxSafeBytes - 1⟩ fuel + 1
        else 0

/-! ## The NameBuilder (`getPath`) -/

/-- The screenshot metadata consumed by `getPath`.  `name = ""` models an
absent/empty `data.name` (both are falsy in JS); `testAttemptIndex = 0`
models an absent index (`data.testAttemptIndex && ...` is falsy for both). -/
structure Data where
  specName : Str
  name : Str
  titles : List JsVal
  testFailure : Bool
  testAttemptIndex : Nat

/-- `RUNNABLE_SEPARATOR`. -/
def RUNNABLE_SEPARATOR : Str := " -- ".data

/-- `(data.specName || '').split(pathSeparatorRe)`. -/
def specNames (d : Data) : List Str :=
  splitSep d.specName

/-- The `names` list before the failure/attempt markers: either
`data.name.split(pathSeparatorRe).map(sanitizeToString)` when `data.name` is
truthy, or the single string joining the sanitized titles with
`RUNNABLE_SEPARATOR`. -/
def rawNames (d : Data) : List Str :=
  if d.name ≠ [] then (splitSep d.name).map (fun s => sanitizeToString (.str s))
  else [joinList RUNNABLE_SEPARATOR (d.titles.map sanitizeToString)]

/-- Update the last element of a list (`names[index] = ...` with
`index = names.length - 1`). -/
def setLast (f : Str → Str) : List Str → List Str
  | [] => []
  | [x] => [f x]
  | x :: y :: t => x :: setLast f (y :: t)

/-- `names` after the `(failed)` marker update. -/
def namesFailed (d : Data) : List Str :=
  if d.testFailure then setLast (fun s => s ++ " (failed)".data) (rawNames d) else rawNames d

/-- `names` after the in-place marker updates: append `" (failed)"` to the
last name when `data.testFailure`, then `" (attempt N)"` (N =
`testAttemptIndex + 1`) when `testAttemptIndex > 0`. -/
def namesWithMarkers (d : Data) : List Str :=
  if 0 < d.testAttemptIndex then
    setLast (fun s => s ++ " (attempt ".data ++ natDigits (d.testAttemptIndex + 1) ++ [')'])
      (namesFailed d)
  else namesFailed d

/-- `path.join(screenshotsFolder, ...specNames, ...names)`. -/
def getPathWithoutExt (screenshotsFolder : Str) (d : Data) : Str :=
  pathJoin (screenshotsFolder :: specNames d ++ namesWithMarkers d)

/-- `getPath` from the source: build the path and hand it to
`ensureSafePath` (starting at duplicate index 0). -/
def getPath (oracle : Oracle) (d : Data) (ext : Str) (screenshotsFolder : Str)
    (overwrite : Bool) (sys : Sys) (fuel : Nat) : Option (Except Str Str × Sys) :=
  ensureSafePath oracle (getPathWithoutExt screenshotsFolder d) ext overwrite 0 sys fuel

/-! ## UTF-8 round-trip lemmas -/

theorem decodeUtf8_ascii (b : Nat) (bs : List Nat) (h : b < 0x80) :
    decodeUtf8 (b :: bs) = Char.ofNat b :: decodeUtf8 bs := by
  conv_lhs => rw [decodeUtf8.eq_def]
  dsimp only
  rw [if_pos h]

theorem decodeUtf8_two (b c1 : Nat) (bs : List Nat) (hb : 0xC2 ≤ b ∧ b ≤ 0xDF)
    (hc : isCont c1) :
    decodeUtf8 (b :: c1 :: bs) = Char.ofNat ((b - 0xC0) * 64 + (c1 - 0x80)) :: decodeUtf8 bs := by
  conv_lhs => rw [decodeUtf8.eq_def]
  dsimp only
  rw [if_neg (by omega : ¬ b < 0x80), if_pos hb, if_pos hc]

theorem decodeUtf8_three (b c1 c2 : Nat) (bs : List Nat) (hb : 0xE0 ≤ b ∧ b ≤ 0xEF)
    (hc1 : isCont3 b c1) (hc2 : isCont c2) :
    decodeUtf8 (b :: c1 :: c2 :: bs)
      = Char.ofNat ((b - 0xE0) * 4096 + (c1 - 0x80) * 64 + (c2 - 0x80)) :: decodeUtf8 bs := by
  conv_lhs => rw [decodeUtf8.eq_def]
  dsimp only
  rw [if_neg (by omega : ¬ b < 0x80), if_neg (by omega : ¬ (0xC2 ≤ b ∧ b ≤ 0xDF)), if_pos hb,
    if_pos hc1, if_pos hc2]

theorem decodeUtf8_four (b c1 c2 c3 : Nat) (bs : List Nat) (hb : 0xF0 ≤ b ∧ b ≤ 0xF4)
    (hc1 : isCont4 b c1) (hc2 : isCont c2) (hc3 : isCont c3) :
    decodeUtf8 (b :: c1 :: c2 :: c3 :: bs)
      = Char.ofNat ((b - 0xF0) * 262144 + (c1 - 0x80) * 4096 + (c2 - 0x80) * 64 + (c3 - 0x80))
          :: decodeUtf8 bs := by
  conv_lhs => rw [decodeUtf8.eq_def]
  dsimp only
  rw [if_neg (by omega : ¬ b < 0x80), if_neg (by omega : ¬ (0xC2 ≤ b ∧ b ≤ 0xDF)),
    if_neg (by omega : ¬ (0xE0 ≤ b ∧ b ≤ 0xEF)), if_pos hb, if_pos hc1, if_pos hc2, if_pos hc3]

/-- Decoding the encoding of one scalar value, followed by arbitrary bytes,
yields that character followed by the decoding of the rest. -/
theorem decodeUtf8_charUtf8_append (c : Char) (bs : List Nat) :
    decodeUtf8 (charUtf8 c ++ bs) = c :: decodeUtf8 bs := by
  have hval : Nat.isValidChar c.toNat := c.valid
  have e1 := Nat.div_add_mod c.toNat 64
  have l1 : c.toNat % 64 < 64 := Nat.mod_lt _ (by omega)
  have e2 := Nat.div_add_mod (c.toNat / 64) 64
  have l2 : c.toNat / 64 % 64 < 64 := Nat.mod_lt _ (by omega)
  have e3 : c.toNat / 64 / 64 = c.toNat / 4096 := by
    rw [Nat.div_div_eq_div_mul]
  rw [e3] at e2
  have e4 := Nat.div_add_mod (c.toNat / 4096) 64
  have l4 : c.toNat / 4096 % 64 < 64 := Nat.mod_lt _ (by omega)
  have e5 : c.toNat / 4096 / 64 = c.toNat / 262144 := by
    rw [Nat.div_div_eq_div_mul]
  rw [e5] at e4
  have hvr : c.toNat < 0xd800 ∨ (0xdfff < c.toNat ∧ c.toNat < 0x110000) := hval
  unfold charUtf8
  by_cases h1 : c.toNat < 0x80
  · rw [if_pos h1]
    simp only [List.cons_append, List.nil_append]
    rw [decodeUtf8_ascii _ _ h1, Char.ofNat_toNat]
  · rw [if_neg h1]
    by_cases h2 : c.toNat < 0x800
    · rw [if_pos h2]
      simp only [List.cons_append, List.nil_append]
      rw [decodeUtf8_two _ _ _ (by omega) (by unfold isCont; omega)]
      have hr : (0xC0 + c.toNat / 64 - 0xC0) * 64 + (0x80 + c.toNat % 64 - 0x80) = c.toNat := by
        omega
      rw [hr, Char.ofNat_toNat]
    · rw [if_neg h2]
      by_cases h3 : c.toNat < 0x10000
      · rw [if_pos h3]
        simp only [List.cons_append, List.nil_append]
        rw [decodeUtf8_three _ _ _ _ (by omega)
          (by unfold isCont3 isCont; split_ifs <;> omega) (by unfold isCont; omega)]
        have hr : (0xE0 + c.toNat / 4096 - 0xE0) * 4096
            + (0x80 + c.toNat / 64 % 64 - 0x80) * 64 + (0x80 + c.toNat % 64 - 0x80)
            = c.toNat := by omega
        rw [hr, Char.ofNat_toNat]
      · rw [if_neg h3]
        simp only [List.cons_append, List.nil_append]
        rw [decodeUtf8_four _ _ _ _ _ (by omega)
          (by unfold isCont4 isCont; split_ifs <;> omega) (by unfold isCont; omega)
          (by unfold isCont; omega)]
        have hr : (0xF0 + c.toNat / 262144 - 0xF0) * 262144
            + (0x80 + c.toNat / 4096 % 64 - 0x80) * 4096
            + (0x80 + c.toNat / 64 % 64 - 0x80) * 64 + (0x80 + c.toNat % 64 - 0x80)
            = c.toNat := by omega
        rw [hr, Char.ofNat_toNat]

/-- Decoding an encoded string followed by arbitrary bytes. -/
theorem decodeUtf8_encode_append (s : Str) (bs : List Nat) :
    decodeUtf8 (utf8Encode s ++ bs) = s ++ decodeUtf8 bs := by
  induction s with
  | nil => simp [utf8Encode]
  | cons c t ih =>
    simp only [utf8Encode, List.flatMap_cons, List.append_assoc]
    rw [decodeUtf8_charUtf8_append]
    simpa [utf8Encode] using congrArg (c :: ·) ih

/-- UTF-8 decode is a left inverse of encode on scalar-value strings. -/
theorem decodeUtf8_encode (s : Str) : decodeUtf8 (utf8Encode s) = s := by
  have h := decodeUtf8_encode_append s []
  simpa [decodeUtf8] using h

/-! ## Byte-length and basename lemmas -/

theorem utf8Encode_append (s t : Str) :
    utf8Encode (s ++ t) = utf8Encode s ++ utf8Encode t := by
  simp [utf8Encode]

theorem utf8Len_append (s t : Str) : utf8Len (s ++ t) = utf8Len s + utf8Len t := by
  simp [utf8Len, utf8Encode_append]

/-- An ASCII character encodes to a single byte. -/
theorem charUtf8_ascii (c : Char) (h : c.toNat < 0x80) : charUtf8 c = [c.toNat] := by
  unfold charUtf8
  rw [if_pos h]

/-- ASCII strings have as many UTF-8 bytes as characters. -/
theorem utf8Len_ascii (s : Str) (h : ∀ c ∈ s, c.toNat < 0x80) : utf8Len s = s.length := by
  induction s with
  | nil => rfl
  | cons c t ih =>
    have hc := h c (List.mem_cons_self c t)
    have ht := fun x hx => h x (List.mem_cons_of_mem _ hx)
    simp only [utf8Len, utf8Encode, List.flatMap_cons, List.length_append, List.length_cons]
    rw [charUtf8_ascii c hc]
    have := ih ht
    simp only [utf8Len, utf8Encode] at this
    simp [this]
    omega

/-- ASCII strings have as many UTF-16 units as characters. -/
theorem jsLength_ascii (s : Str) (h : ∀ c ∈ s, c.toNat < 0x80) : jsLength s = s.length := by
  induction s with
  | nil => rfl
  | cons c t ih =>
    have hc := h c (List.mem_cons_self c t)
    have ht := fun x hx => h x (List.mem_cons_of_mem _ hx)
    simp only [jsLength, List.map_cons, List.sum_cons, List.length_cons]
    have hw : utf16Width c = 1 := by unfold utf16Width; rw [if_pos (by omega)]
    have := ih ht
    simp only [jsLength] at this
    rw [hw, this]
    omega

theorem jsLength_append (s t : Str) : jsLength (s ++ t) = jsLength s + jsLength t := by
  simp [jsLength]

/-- A slash appears among the UTF-8 bytes of `s` exactly when `s` contains a
slash character (continuation and lead bytes of multi-byte characters are all
at least 0x80). -/
theorem slash_mem_utf8Encode (s : Str) : (0x2F ∈ utf8Encode s) ↔ '/' ∈ s := by
  induction s with
  | nil => simp [utf8Encode]
  | cons c t ih =>
    simp only [utf8Encode, List.flatMap_cons, List.mem_append, List.mem_cons]
    rw [show t.flatMap charUtf8 = utf8Encode t from rfl, ih]
    constructor
    · rintro (hm | hm)
      · left
        unfold charUtf8 at hm
        split_ifs at hm with h1 h2 h3 <;> simp at hm
        · have hc' : c.toNat = 0x2F := by omega
          have hchar : c = Char.ofNat 0x2F := by
            rw [← hc', Char.ofNat_toNat]
          exact (hchar.trans (by decide)).symm
        · omega
        · omega
        · omega
      · right; exact hm
    · rintro (hm | hm)
      · left
        subst hm
        decide
      · right; exact hm

/-- `p` splits as its directory part followed by its basename. -/
theorem dirPart_append_basename (p : Str) : dirPart p ++ basename p = p := by
  unfold dirPart basename
  rw [← List.reverse_append, List.takeWhile_append_dropWhile, List.reverse_reverse]

/-- The basename contains no slash. -/
theorem basename_no_slash (p : Str) : '/' ∉ basename p := by
  unfold basename
  intro hm
  rw [List.mem_reverse] at hm
  have := List.mem_takeWhile_imp hm
  simp at this

/-- The first element surviving `dropWhile` fails the predicate. -/
theorem dropWhile_head_false {α : Type} (q : α → Bool) (l : List α) (a : α) (t : List α)
    (h : l.dropWhile q = a :: t) : q a = false := by
  induction l with
  | nil => simp [List.dropWhile] at h
  | cons c r ih =>
    rw [List.dropWhile_cons] at h
    by_cases hq : q c = true
    · rw [if_pos hq] at h
      exact ih h
    · rw [if_neg hq] at h
      cases h
      simpa using hq

/-- The directory part ends in a slash (or is empty): its own basename is empty. -/
theorem basename_dirPart (p : Str) : basename (dirPart p) = [] := by
  unfold basename dirPart
  rw [List.reverse_reverse]
  cases h : p.reverse.dropWhile (fun c => decide (c ≠ '/')) with
  | nil => simp
  | cons a l =>
    have ha := dropWhile_head_false _ _ _ _ h
    have ha' : a = '/' := by simpa using ha
    simp [List.takeWhile_cons, ha', h]

/-- `takeWhile` walks through a block that fully satisfies the predicate. -/
theorem takeWhile_all_append {α : Type} (q : α → Bool) (a b : List α)
    (h : ∀ x ∈ a, q x = true) :
    List.takeWhile q (a ++ b) = a ++ List.takeWhile q b := by
  induction a with
  | nil => simp
  | cons c r ih =>
    simp only [List.cons_append, List.takeWhile_cons]
    rw [if_pos (h c (List.mem_cons_self c r)), ih (fun x hx => h x (List.mem_cons_of_mem _ hx))]

/-- Appending slash-free text extends the basename. -/
theorem basename_append (s t : Str) (h : '/' ∉ t) : basename (s ++ t) = basename s ++ t := by
  unfold basename
  rw [List.reverse_append]
  rw [takeWhile_all_append _ t.reverse _ (by
    intro c hc
    rw [List.mem_reverse] at hc
    simp only [decide_eq_true_eq]
    rintro rfl
    exact h hc)]
  rw [List.reverse_append, List.reverse_reverse]

/-- Content after the directory part of `p` is its own basename when slash-free. -/
theorem basename_dirPart_append (p t : Str) (h : '/' ∉ t) :
    basename (dirPart p ++ t) = t := by
  rw [basename_append _ _ h, basename_dirPart, List.nil_append]

/-! ## Decimal digit lemmas -/

theorem toNat_ofNat_small (n : Nat) (h : n < 0xd800) : (Char.ofNat n).toNat = n := by
  unfold Char.ofNat
  rw [dif_pos (Or.inl h)]
  rfl

theorem digitChar_toNat (n : Nat) (h : n < 10) : (digitChar n).toNat = 48 + n := by
  unfold digitChar
  exact toNat_ofNat_small _ (by omega)

theorem natDigits_ne_nil (n : Nat) : natDigits n ≠ [] := by
  rw [natDigits_eq]
  split_ifs <;> simp

theorem natDigits_digits (n : Nat) :
    ∀ c ∈ natDigits n, 48 ≤ c.toNat ∧ c.toNat ≤ 57 := by
  induction n using Nat.strong_induction_on with
  | _ n ih =>
    rw [natDigits_eq]
    split_ifs with h
    · intro c hc
      simp only [List.mem_singleton] at hc
      subst hc
      rw [digitChar_toNat _ h]
      omega
    · intro c hc
      rw [List.mem_append] at hc
      rcases hc with hc | hc
      · exact ih (n / 10) (Nat.div_lt_self (by omega) (by omega)) c hc
      · simp only [List.mem_singleton] at hc
        subst hc
        rw [digitChar_toNat _ (Nat.mod_lt _ (by omega))]
        have := Nat.mod_lt n (y := 10) (by omega)
        omega

theorem natDigits_ascii (n : Nat) : ∀ c ∈ natDigits n, c.toNat < 0x80 := by
  intro c hc
  have := natDigits_digits n c hc
  omega

/-- Decimal-digit test used by the index parser below. -/
def isDigitB (c : Char) : Bool :=
  decide (48 ≤ c.toNat) && decide (c.toNat ≤ 57)

theorem natDigits_isDigitB (n : Nat) : ∀ c ∈ natDigits n, isDigitB c = true := by
  intro c hc
  have h := natDigits_digits n c hc
  unfold isDigitB
  simp only [Bool.and_eq_true, decide_eq_true_eq]
  omega

theorem digitsVal_append_digit (a : Str) (d : Char) :
    digitsVal (a ++ [d]) = digitsVal a * 10 + (d.toNat - 48) := by
  unfold digitsVal
  rw [List.foldl_append]
  rfl

theorem digitsVal_natDigits (n : Nat) : digitsVal (natDigits n) = n := by
  induction n using Nat.strong_induction_on with
  | _ n ih =>
    rw [natDigits_eq]
    split_ifs with h
    · unfold digitsVal
      simp only [List.foldl_cons, List.foldl_nil]
      rw [digitChar_toNat _ h]
      omega
    · rw [digitsVal_append_digit, ih (n / 10) (Nat.div_lt_self (by omega) (by omega)),
        digitChar_toNat _ (Nat.mod_lt _ (by omega))]
      omega

theorem natDigits_length_mono (n m : Nat) (h : n ≤ m) :
    (natDigits n).length ≤ (natDigits m).length := by
  induction m using Nat.strong_induction_on generalizing n with
  | _ m ih =>
    by_cases hm : m < 10
    · have hn : n < 10 := by omega
      rw [natDigits_eq n, natDigits_eq m, if_pos hn, if_pos hm]
      simp
    · by_cases hn : n < 10
      · rw [natDigits_eq n, natDigits_eq m, if_pos hn, if_neg hm]
        have := natDigits_ne_nil (m / 10)
        simp only [List.length_append, List.length_singleton, List.length_cons,
          List.length_nil]
        cases hq : natDigits (m / 10) with
        | nil => exact absurd hq this
        | cons a l => simp
      · rw [natDigits_eq n, natDigits_eq m, if_neg hn, if_neg hm]
        simp only [List.length_append, List.length_singleton]
        have := ih (m / 10) (Nat.div_lt_self (by omega) (by omega)) (n / 10)
          (Nat.div_le_div_right h)
        omega

/-! ## Parsing the duplicate-index marker back out of a candidate path -/

/-- Strip an expected prefix from a list, or fail. -/
def dropPre : List Char → List Char → Option (List Char)
  | [], l => some l
  | _ :: _, [] => none
  | a :: as, b :: bs => if a = b then dropPre as bs else none

theorem dropPre_append (a l : List Char) : dropPre a (a ++ l) = some l := by
  induction a with
  | nil => rfl
  | cons c r ih =>
    simp only [List.cons_append, dropPre, if_pos rfl]
    exact ih

/-- Extract `n` from a path of the shape `pre ++ " (n)." ++ e` (`none` when
the path does not end that way).  Deterministic: used to show that candidate
paths for distinct positive duplicate indices are distinct. -/
def idxOf (e p : Str) : Option Nat :=
  match dropPre (e.reverse ++ ['.']) p.reverse with
  | none => none
  | some (')' :: r2) =>
    match r2.takeWhile isDigitB, r2.dropWhile isDigitB with
    | [], _ => none
    | d :: ds, '(' :: ' ' :: _ => some (digitsVal (d :: ds : Str).reverse)
    | _ :: _, _ => none
  | some _ => none

theorem dropWhile_all_append {α : Type} (q : α → Bool) (a b : List α)
    (h : ∀ x ∈ a, q x = true) :
    List.dropWhile q (a ++ b) = List.dropWhile q b := by
  induction a with
  | nil => simp
  | cons c r ih =>
    simp only [List.cons_append, List.dropWhile_cons]
    rw [if_pos (h c (List.mem_cons_self c r))]
    exact ih (fun x hx => h x (List.mem_cons_of_mem _ hx))

/-- The parser recovers the duplicate index from any candidate path that
carries a marker, whatever the prefix. -/
theorem idxOf_marker (e pre : Str) (n : Nat) :
    idxOf e (pre ++ markerStr n ++ '.' :: e) = some n := by
  unfold idxOf
  have hrev : (pre ++ markerStr n ++ '.' :: e).reverse
      = (e.reverse ++ ['.']) ++ (')' :: ((natDigits n).reverse ++ '(' :: ' ' :: pre.reverse)) := by
    unfold markerStr
    simp [List.reverse_append, List.append_assoc]
  rw [hrev, dropPre_append]
  have hdig : ∀ x ∈ (natDigits n).reverse, isDigitB x = true := by
    intro x hx
    rw [List.mem_reverse] at hx
    exact natDigits_isDigitB n x hx
  have htake : ((natDigits n).reverse ++ '(' :: ' ' :: pre.reverse).takeWhile isDigitB
      = (natDigits n).reverse := by
    rw [takeWhile_all_append _ _ _ hdig]
    simp [List.takeWhile_cons, isDigitB]
  have hdrop : ((natDigits n).reverse ++ '(' :: ' ' :: pre.reverse).dropWhile isDigitB
      = '(' :: ' ' :: pre.reverse := by
    rw [dropWhile_all_append _ _ _ hdig]
    simp [List.dropWhile_cons, isDigitB]
  simp only [htake, hdrop]
  cases hq : (natDigits n).reverse with
  | nil =>
    exact absurd (by simpa using congrArg List.reverse hq) (natDigits_ne_nil n)
  | cons d ds =>
    simp only
    rw [← hq, List.reverse_reverse, digitsVal_natDigits]

/-- Candidate paths carrying distinct duplicate-index markers are distinct,
whatever their (possibly differently truncated) prefixes. -/
theorem marker_paths_distinct (e pre1 pre2 : Str) (n m : Nat) (h : n ≠ m) :
    pre1 ++ markerStr n ++ '.' :: e ≠ pre2 ++ markerStr m ++ '.' :: e := by
  intro heq
  have h1 := idxOf_marker e pre1 n
  have h2 := idxOf_marker e pre2 m
  rw [heq] at h1
  rw [h1] at h2
  exact h (Option.some.inj h2)

/-! ## Termination of the resolver -/

/-- One-step unfolding of `ensureSafePath` at positive fuel. -/
theorem ensureSafePath_succ (oracle : Oracle) (w e : Str) (ov : Bool) (num : Nat)
    (sys : Sys) (fuel : Nat) :
    ensureSafePath oracle w e ov num sys (fuel + 1)
      = (if pathExistsB sys.files (resolveStep sys.maxSafeBytes w e ov num).2 = true ∧ ov = false
         then ensureSafePath oracle (resolveStep sys.maxSafeBytes w e ov num).1 e ov (num + 1)
            sys fuel
         else
           match oracle (resolveStep sys.maxSafeBytes w e ov num).2 with
           | none => some (Except.ok (resolveStep sys.maxSafeBytes w e ov num).2,
               ⟨outputFile sys.files (resolveStep sys.maxSafeBytes w e ov num).2,
                sys.maxSafeBytes⟩)
           | some code =>
             if code = ntlCode ∧ MIN_PREFIX_BYTES ≤ maxSafePrefixBytes sys.maxSafeBytes e ov num
             then ensureSafePath oracle (resolveStep sys.maxSafeBytes w e ov num).1 e ov num
                ⟨sys.files, sys.maxSafeBytes - 1⟩ fuel
             else some (Except.error code, sys)) := rfl

/-- One-step unfolding of `ntlCount` at positive fuel. -/
theorem ntlCount_succ (oracle : Oracle) (w e : Str) (ov : Bool) (num : Nat)
    (sys : Sys) (fuel : Nat) :
    ntlCount oracle w e ov num sys (fuel + 1)
      = (if pathExistsB sys.files (resolveStep sys.maxSafeBytes w e ov num).2 = true ∧ ov = false
         then ntlCount oracle (resolveStep sys.maxSafeBytes w e ov num).1 e ov (num + 1) sys fuel
         else
           match oracle (resolveStep sys.maxSafeBytes w e ov num).2 with
           | none => 0
           | some code =>
             if code = ntlCode ∧ MIN_PREFIX_BYTES ≤ maxSafePrefixBytes sys.maxSafeBytes e ov num
             then ntlCount oracle (resolveStep sys.maxSafeBytes w e ov num).1 e ov num
                ⟨sys.files, sys.maxSafeBytes - 1⟩ fuel + 1
             else 0) := rfl

/-- Does `p` carry a duplicate-index marker with index at least `num`? -/
def idxAtLeast (e : Str) (num : Nat) (p : Str) : Bool :=
  match idxOf e p with
  | some m => decide (num ≤ m)
  | none => false

/-- The termination potential: the remaining length budget, the number of
existing files still reachable as marker candidates, and one extra step for
the unmarked index 0. -/
def potential (e : Str) (num : Nat) (sys : Sys) : Nat :=
  sys.maxSafeBytes + sys.files.countP (fun pr => idxAtLeast e num pr.1)
    + (if num = 0 then 1 else 0)

theorem countP_mono_imp {α : Type} (p q : α → Bool) (l : List α)
    (himp : ∀ x, q x = true → p x = true) : l.countP q ≤ l.countP p := by
  induction l with
  | nil => simp
  | cons c t ih =>
    rw [List.countP_cons, List.countP_cons]
    by_cases hq : q c = true
    · have h1 : (if q c then 1 else 0) = 1 := by simp [hq]
      have h2 : (if p c then 1 else 0) = 1 := by simp [himp c hq]
      omega
    · have h1 : (if q c then 1 else 0) = 0 := by simp [hq]
      have h2 : (if p c then 1 else 0) ≤ 1 := by split_ifs <;> omega
      omega

theorem countP_lt_of_mem {α : Type} (p q : α → Bool) (l : List α) (a : α)
    (ha : a ∈ l) (hpa : p a = true) (hqa : q a = false)
    (himp : ∀ x, q x = true → p x = true) : l.countP q < l.countP p := by
  induction l with
  | nil => cases ha
  | cons c t ih =>
    rw [List.countP_cons, List.countP_cons]
    rcases List.mem_cons.mp ha with rfl | hat
    · have h1 : (if p a then 1 else 0) = 1 := by simp [hpa]
      have h2 : (if q a then 1 else 0) = 0 := by simp [hqa]
      have := countP_mono_imp p q t himp
      omega
    · have := ih hat
      by_cases hq : q c = true
      · have h1 : (if q c then 1 else 0) = 1 := by simp [hq]
        have h2 : (if p c then 1 else 0) = 1 := by simp [himp c hq]
        omega
      · have h1 : (if q c then 1 else 0) = 0 := by simp [hq]
        have h2 : (if p c then 1 else 0) ≤ 1 := by split_ifs <;> omega
        omega

theorem idxAtLeast_mono (e : Str) (n m : Nat) (h : m ≤ n) (p : Str)
    (hp : idxAtLeast e n p = true) : idxAtLeast e m p = true := by
  unfold idxAtLeast at hp ⊢
  cases hix : idxOf e p with
  | none => simp [hix] at hp
  | some k =>
    simp only [hix, decide_eq_true_eq] at hp ⊢
    omega

theorem idxAtLeast_self (e p : Str) (n : Nat) (h : idxOf e p = some n) :
    idxAtLeast e n p = true := by
  unfold idxAtLeast
  rw [h]
  simp

theorem idxAtLeast_succ_false (e p : Str) (n : Nat) (h : idxOf e p = some n) :
    idxAtLeast e (n + 1) p = false := by
  unfold idxAtLeast
  rw [h]
  simp

/-- Any membership extracted from a positive existence check. -/
theorem pathExistsB_mem (files : List (Str × Str)) (p : Str)
    (h : pathExistsB files p = true) : ∃ pr ∈ files, pr.1 = p := by
  unfold pathExistsB at h
  rw [List.any_eq_true] at h
  obtain ⟨pr, hpr, hb⟩ := h
  exact ⟨pr, hpr, by simpa using hb⟩

/-- With no marker requested, `resolveStep` appends only `.` and the
extension; with a marker it appends the full marker. -/
theorem resolveStep_snd (budget : Nat) (w e : Str) (ov : Bool) (num : Nat) :
    (resolveStep budget w e ov num).2
      = (resolveStep budget w e ov num).1 ++ suffixFor num e ov := rfl

/-- With fuel above the potential, the resolver reaches a terminal state. -/
theorem ensureSafePath_total (fuel : Nat) :
    ∀ (oracle : Oracle) (w e : Str) (ov : Bool) (num : Nat) (sys : Sys),
      potential e num sys < fuel →
      (ensureSafePath oracle w e ov num sys fuel).isSome = true := by
  induction fuel with
  | zero => intro _ _ _ _ _ _ h; omega
  | succ fuel ih =>
    intro oracle w e ov num sys hpot
    rw [ensureSafePath_succ]
    by_cases hex : pathExistsB sys.files (resolveStep sys.maxSafeBytes w e ov num).2 = true
        ∧ ov = false
    · rw [if_pos hex]
      apply ih
      -- the potential strictly decreases when moving from `num` to `num + 1`
      have hdec : potential e (num + 1) sys < potential e num sys := by
        have hsucc : potential e (num + 1) sys
            = sys.maxSafeBytes + sys.files.countP (fun pr => idxAtLeast e (num + 1) pr.1) := by
          unfold potential
          simp
        by_cases h0 : num = 0
        · subst h0
          have h00 : potential e 0 sys
              = sys.maxSafeBytes + sys.files.countP (fun pr => idxAtLeast e 0 pr.1) + 1 := by
            unfold potential
            simp
          have hmono := countP_mono_imp (fun pr => idxAtLeast e 0 pr.1)
            (fun pr => idxAtLeast e (0 + 1) pr.1) sys.files
            (fun x hx => idxAtLeast_mono e (0 + 1) 0 (by omega) x.1 hx)
          omega
        · -- `num ≥ 1`: the candidate path carries the marker for `num`
          have hn : potential e num sys
              = sys.maxSafeBytes + sys.files.countP (fun pr => idxAtLeast e num pr.1) := by
            unfold potential
            simp [h0]
          obtain ⟨pr, hmem, hpr⟩ := pathExistsB_mem _ _ hex.1
          have hfull : (resolveStep sys.maxSafeBytes w e ov num).2
              = (resolveStep sys.maxSafeBytes w e ov num).1 ++ markerStr num ++ '.' :: e := by
            rw [resolveStep_snd]
            rw [show suffixFor num e ov = markerStr num ++ '.' :: e by
              unfold suffixFor
              rw [if_pos ⟨h0, hex.2⟩]]
            rw [List.append_assoc]
          have hidx : idxOf e pr.1 = some num := by
            rw [hpr, hfull]
            exact idxOf_marker e _ num
          have hlt := countP_lt_of_mem (fun pr => idxAtLeast e num pr.1)
            (fun pr => idxAtLeast e (num + 1) pr.1) sys.files pr hmem
            (idxAtLeast_self e pr.1 num hidx)
            (idxAtLeast_succ_false e pr.1 num hidx)
            (fun x hx => idxAtLeast_mono e (num + 1) num (by omega) x.1 hx)
          omega
      omega
    · rw [if_neg hex]
      cases horacle : oracle (resolveStep sys.maxSafeBytes w e ov num).2 with
      | none => simp
      | some code =>
        dsimp only
        by_cases hntl : code = ntlCode
            ∧ MIN_PREFIX_BYTES ≤ maxSafePrefixBytes sys.maxSafeBytes e ov num
        · rw [if_pos hntl]
          apply ih
          have hb : (64 : Int) ≤ (sys.maxSafeBytes : Int) - jsLength (suffixFor num e ov) := by
            have := hntl.2
            unfold maxSafePrefixBytes MIN_PREFIX_BYTES at this
            omega
          have hb' : 1 ≤ sys.maxSafeBytes := by
            by_contra hc
            push_neg at hc
            interval_cases sys.maxSafeBytes
            omega
          have hp1 : potential e num ⟨sys.files, sys.maxSafeBytes - 1⟩
              = sys.maxSafeBytes - 1 + sys.files.countP (fun pr => idxAtLeast e num pr.1)
                + (if num = 0 then 1 else 0) := by
            unfold potential
            rfl
          have hp0 : potential e num sys
              = sys.maxSafeBytes + sys.files.countP (fun pr => idxAtLeast e num pr.1)
                + (if num = 0 then 1 else 0) := by
            unfold potential
            rfl
          omega
        · rw [if_neg hntl]
          simp

/-! ## Budget accounting -/

/-- Across any completed run, the final budget plus the number of
`ENAMETOOLONG` recoveries equals the initial budget: each recovery
decrements `maxSafeBytes` by exactly one, and nothing ever restores it. -/
theorem budget_ntlCount (fuel : Nat) :
    ∀ (oracle : Oracle) (w e : Str) (ov : Bool) (num : Nat) (sys : Sys)
      (r : Except Str Str) (sys' : Sys),
      ensureSafePath oracle w e ov num sys fuel = some (r, sys') →
      sys'.maxSafeBytes + ntlCount oracle w e ov num sys fuel = sys.maxSafeBytes := by
  induction fuel with
  | zero => intro _ _ _ _ _ _ _ _ h; cases h
  | succ fuel ih =>
    intro oracle w e ov num sys r sys' h
    rw [ensureSafePath_succ] at h
    rw [ntlCount_succ]
    by_cases hex : pathExistsB sys.files (resolveStep sys.maxSafeBytes w e ov num).2 = true
        ∧ ov = false
    · rw [if_pos hex] at h
      rw [if_pos hex]
      exact ih _ _ _ _ _ _ _ _ h
    · rw [if_neg hex] at h
      rw [if_neg hex]
      cases horacle : oracle (resolveStep sys.maxSafeBytes w e ov num).2 with
      | none =>
        rw [horacle] at h
        dsimp only at h ⊢
        cases h
        rfl
      | some code =>
        rw [horacle] at h
        dsimp only at h ⊢
        by_cases hntl : code = ntlCode
            ∧ MIN_PREFIX_BYTES ≤ maxSafePrefixBytes sys.maxSafeBytes e ov num
        · rw [if_pos hntl] at h
          rw [if_pos hntl]
          have hrec := ih _ _ _ _ _ _ _ _ h
          have hb : (64 : Int) ≤ (sys.maxSafeBytes : Int) - jsLength (suffixFor num e ov) := by
            have := hntl.2
            unfold maxSafePrefixBytes MIN_PREFIX_BYTES at this
            omega
          have hb' : 1 ≤ sys.maxSafeBytes := by
            by_contra hc
            push_neg at hc
            interval_cases sys.maxSafeBytes
            omega
          simp only at hrec
          omega
        · rw [if_neg hntl] at h
          rw [if_neg hntl]
          cases h
          rfl

/-- The budget never grows across a completed run. -/
theorem budget_monotone (fuel : Nat) (oracle : Oracle) (w e : Str) (ov : Bool)
    (num : Nat) (sys : Sys) (r : Except Str Str) (sys' : Sys)
    (h : ensureSafePath oracle w e ov num sys fuel = some (r, sys')) :
    sys'.maxSafeBytes ≤ sys.maxSafeBytes := by
  have := budget_ntlCount fuel oracle w e ov num sys r sys' h
  omega

/-! ## Overwrite mode ignores the duplicate index -/

theorem suffixFor_true (num : Nat) (e : Str) : suffixFor num e true = '.' :: e := by
  unfold suffixFor
  rw [if_neg (by simp)]
  rfl

theorem maxSafePrefixBytes_true (budget : Nat) (e : Str) (num : Nat) :
    maxSafePrefixBytes budget e true num = maxSafePrefixBytes budget e true 0 := by
  unfold maxSafePrefixBytes
  rw [suffixFor_true, suffixFor_true]

theorem truncTo_true (budget : Nat) (w e : Str) (num : Nat) :
    truncTo budget w e true num = truncTo budget w e true 0 := by
  unfold truncTo
  rw [maxSafePrefixBytes_true]

theorem resolveStep_true (budget : Nat) (w e : Str) (num : Nat) :
    resolveStep budget w e true num = resolveStep budget w e true 0 := by
  unfold resolveStep
  rw [truncTo_true, suffixFor_true, suffixFor_true]

/-- With overwrite on, the duplicate index is immaterial: the whole run is
the run at index 0. -/
theorem ensure_overwrite_num (fuel : Nat) :
    ∀ (oracle : Oracle) (w e : Str) (num : Nat) (sys : Sys),
      ensureSafePath oracle w e true num sys fuel
        = ensureSafePath oracle w e true 0 sys fuel := by
  induction fuel with
  | zero => intro _ _ _ _ _; rfl
  | succ fuel ih =>
    intro oracle w e num sys
    rw [ensureSafePath_succ, ensureSafePath_succ, resolveStep_true]
    rw [if_neg (by simp), if_neg (by simp)]
    cases horacle : oracle (resolveStep sys.maxSafeBytes w e true 0).2 with
    | none => rfl
    | some code =>
      dsimp only
      rw [maxSafePrefixBytes_true]
      by_cases hntl : code = ntlCode
          ∧ MIN_PREFIX_BYTES ≤ maxSafePrefixBytes sys.maxSafeBytes e true 0
      · rw [if_pos hntl, if_pos hntl]
        exact ih _ _ _ _ _
      · rw [if_neg hntl, if_neg hntl]

/-- With overwrite on and a successful create, the resolver returns the
unsuffixed canonical path (no duplicate-index marker), whatever `num` and
whatever already exists. -/
theorem ensure_overwrite_success (oracle : Oracle) (w e : Str) (num : Nat) (sys : Sys)
    (fuel : Nat)
    (hok : oracle (truncTo sys.maxSafeBytes w e true num ++ '.' :: e) = none) :
    ensureSafePath oracle w e true num sys (fuel + 1)
      = some (Except.ok (truncTo sys.maxSafeBytes w e true num ++ '.' :: e),
          ⟨outputFile sys.files (truncTo sys.maxSafeBytes w e true num ++ '.' :: e),
           sys.maxSafeBytes⟩) := by
  rw [ensureSafePath_succ]
  rw [if_neg (by simp)]
  have hsnd : (resolveStep sys.maxSafeBytes w e true num).2
      = truncTo sys.maxSafeBytes w e true num ++ '.' :: e := by
    rw [resolveStep_snd]
    rw [show (resolveStep sys.maxSafeBytes w e true num).1
        = truncTo sys.maxSafeBytes w e true num from rfl]
    rw [suffixFor_true]
  rw [hsnd, hok]

/-! ## Deduplication walks to the first free index -/

theorem truncTo_of_fits (budget : Nat) (w e : Str) (ov : Bool) (num : Nat)
    (h : (utf8Len (basename w) : Int) ≤ maxSafePrefixBytes budget e ov num) :
    truncTo budget w e ov num = w := by
  unfold truncTo
  rw [if_neg (by omega)]

theorem jsLength_cons (c : Char) (s : Str) :
    jsLength (c :: s) = utf16Width c + jsLength s := by
  simp [jsLength]

theorem jsLength_markerStr (n : Nat) : jsLength (markerStr n) = 3 + (natDigits n).length := by
  unfold markerStr
  simp only [jsLength_cons, jsLength_append]
  rw [jsLength_ascii _ (natDigits_ascii n)]
  have h1 : utf16Width ' ' = 1 := by decide
  have h2 : utf16Width '(' = 1 := by decide
  have h3 : utf16Width ')' = 1 := by decide
  have h4 : jsLength ([] : Str) = 0 := rfl
  omega

/-- The suffix for any index up to `N` is no longer (in UTF-16 units) than
the marker-plus-extension suffix at `N` itself. -/
theorem jsLength_suffixFor_le (i N : Nat) (e : Str) (h : i ≤ N) :
    jsLength (suffixFor i e false) ≤ jsLength (markerStr N ++ '.' :: e) := by
  unfold suffixFor
  by_cases h0 : i = 0
  · subst h0
    rw [if_neg (by simp), List.nil_append, jsLength_append]
    omega
  · rw [if_pos ⟨h0, rfl⟩]
    rw [jsLength_append, jsLength_append]
    have := natDigits_length_mono i N h
    rw [jsLength_markerStr, jsLength_markerStr]
    omega

theorem outputFile_not_exists (files : List (Str × Str)) (p : Str)
    (h : pathExistsB files p = false) :
    outputFile files p = files ++ [(p, ([] : Str))] := by
  unfold outputFile
  rw [h]
  rfl

/-- If the canonical path and every following marked variant up to `N`
exists, the resolver walks the indices one by one, reserves the first free
slot `N`, and touches nothing else. -/
theorem dedup_reaches_free (N : Nat) :
    ∀ (k num fuel : Nat) (oracle : Oracle) (w e : Str) (sys : Sys),
      num + k = N →
      (∀ i, num ≤ i → i < N → pathExistsB sys.files (w ++ suffixFor i e false) = true) →
      pathExistsB sys.files (w ++ suffixFor N e false) = false →
      oracle (w ++ suffixFor N e false) = none →
      (utf8Len (basename w) : Int)
        ≤ (sys.maxSafeBytes : Int) - jsLength (markerStr N ++ '.' :: e) →
      k < fuel →
      ensureSafePath oracle w e false num sys fuel
        = some (Except.ok (w ++ suffixFor N e false),
            ⟨sys.files ++ [(w ++ suffixFor N e false, ([] : Str))], sys.maxSafeBytes⟩) := by
  intro k
  induction k with
  | zero =>
    intro num fuel oracle w e sys hnum hex hfree hok hfit hfuel
    have hnum' : N = num := by omega
    subst hnum'
    obtain ⟨fuel, rfl⟩ : ∃ f, fuel = f + 1 := ⟨fuel - 1, by omega⟩
    rw [ensureSafePath_succ]
    have htr : truncTo sys.maxSafeBytes w e false N = w := by
      apply truncTo_of_fits
      unfold maxSafePrefixBytes
      have := jsLength_suffixFor_le N N e (le_refl N)
      omega
    have hsnd : (resolveStep sys.maxSafeBytes w e false N).2 = w ++ suffixFor N e false := by
      rw [resolveStep_snd]
      rw [show (resolveStep sys.maxSafeBytes w e false N).1
          = truncTo sys.maxSafeBytes w e false N from rfl, htr]
    rw [hsnd]
    rw [if_neg (by rw [hfree]; simp)]
    rw [hok]
    dsimp only
    rw [outputFile_not_exists _ _ hfree]
  | succ k ih =>
    intro num fuel oracle w e sys hnum hex hfree hok hfit hfuel
    obtain ⟨fuel, rfl⟩ : ∃ f, fuel = f + 1 := ⟨fuel - 1, by omega⟩
    rw [ensureSafePath_succ]
    have htr : truncTo sys.maxSafeBytes w e false num = w := by
      apply truncTo_of_fits
      unfold maxSafePrefixBytes
      have := jsLength_suffixFor_le num N e (by omega)
      omega
    have hsnd : (resolveStep sys.maxSafeBytes w e false num).2 = w ++ suffixFor num e false := by
      rw [resolveStep_snd]
      rw [show (resolveStep sys.maxSafeBytes w e false num).1
          = truncTo sys.maxSafeBytes w e false num from rfl, htr]
    rw [hsnd]
    rw [if_pos ⟨hex num (le_refl num) (by omega), rfl⟩]
    rw [show (resolveStep sys.maxSafeBytes w e false num).1
        = truncTo sys.maxSafeBytes w e false num from rfl, htr]
    exact ih (num + 1) fuel oracle w e sys (by omega)
      (fun i hi1 hi2 => hex i (by omega) hi2) hfree hok hfit (by omega)

/-! ## Byte-exact truncation on character boundaries -/

/-- Every character of a duplicate-index marker is a space, a parenthesis or
a decimal digit. -/
theorem markerStr_chars (n : Nat) : ∀ c ∈ markerStr n,
    c = ' ' ∨ c = '(' ∨ c = ')' ∨ (48 ≤ c.toNat ∧ c.toNat ≤ 57) := by
  intro c hc
  unfold markerStr at hc
  rcases List.mem_cons.mp hc with rfl | hc
  · exact Or.inl rfl
  rcases List.mem_cons.mp hc with rfl | hc
  · exact Or.inr (Or.inl rfl)
  rcases List.mem_append.mp hc with hc | hc
  · exact Or.inr (Or.inr (Or.inr (natDigits_digits n c hc)))
  · have := List.mem_singleton.mp hc
    subst this
    exact Or.inr (Or.inr (Or.inl rfl))

theorem slash_not_in_markerStr (n : Nat) : '/' ∉ markerStr n := by
  intro hm
  rcases markerStr_chars n '/' hm with h | h | h | h
  · cases h
  · cases h
  · cases h
  · have : ('/' : Char).toNat = 47 := by decide
    omega

theorem slash_not_in_suffixFor (num : Nat) (e : Str) (ov : Bool) (hsl : '/' ∉ e) :
    '/' ∉ suffixFor num e ov := by
  unfold suffixFor
  intro hm
  rcases List.mem_append.mp hm with hm | hm
  · split_ifs at hm
    · exact slash_not_in_markerStr num hm
    · cases hm
  · rcases List.mem_cons.mp hm with hm | hm
    · cases hm
    · exact hsl hm

theorem markerStr_ascii (n : Nat) : ∀ c ∈ markerStr n, c.toNat < 0x80 := by
  intro c hc
  rcases markerStr_chars n c hc with rfl | rfl | rfl | h
  · decide
  · decide
  · decide
  · omega

theorem suffixFor_ascii (num : Nat) (e : Str) (ov : Bool)
    (hext : ∀ c ∈ e, c.toNat < 0x80) :
    ∀ c ∈ suffixFor num e ov, c.toNat < 0x80 := by
  intro c hc
  unfold suffixFor at hc
  rcases List.mem_append.mp hc with hc | hc
  · split_ifs at hc
    · exact markerStr_ascii num c hc
    · cases hc
  · rcases List.mem_cons.mp hc with rfl | hc
    · decide
    · exact hext c hc

/-- When the byte cut lands on a character boundary (the first
`maxSafePrefixBytes` bytes of the basename are the encoding of some string
`p`), the decoded truncation is exactly `p` and the resulting basename has
exactly `maxSafePrefixBytes` prefix bytes plus the suffix bytes. -/
theorem trunc_exact (budget : Nat) (w e p : Str) (ov : Bool) (num : Nat)
    (hsl : '/' ∉ e)
    (hpb0 : 0 ≤ maxSafePrefixBytes budget e ov num)
    (hlong : maxSafePrefixBytes budget e ov num < (utf8Len (basename w) : Int))
    (hcut : (utf8Encode (basename w)).take (maxSafePrefixBytes budget e ov num).toNat
        = utf8Encode p) :
    utf8Len (basename (resolveStep budget w e ov num).2)
      = (maxSafePrefixBytes budget e ov num).toNat + utf8Len (suffixFor num e ov) := by
  have hslice : bufSlice (utf8Encode (basename w)) (maxSafePrefixBytes budget e ov num)
      = utf8Encode p := by
    unfold bufSlice
    rw [if_neg (by omega)]
    exact hcut
  have htr : truncTo budget w e ov num = dirPart w ++ p := by
    unfold truncTo
    rw [if_pos hlong, hslice, decodeUtf8_encode]
    rfl
  have hsnd : (resolveStep budget w e ov num).2
      = dirPart w ++ (p ++ suffixFor num e ov) := by
    rw [resolveStep_snd]
    rw [show (resolveStep budget w e ov num).1 = truncTo budget w e ov num from rfl, htr,
      List.append_assoc]
  have hpns : '/' ∉ p := by
    intro hp
    have h1 : (0x2F : Nat) ∈ utf8Encode p := (slash_mem_utf8Encode p).mpr hp
    rw [← hcut] at h1
    have h2 : (0x2F : Nat) ∈ utf8Encode (basename w) := List.take_subset _ _ h1
    exact basename_no_slash w ((slash_mem_utf8Encode (basename w)).mp h2)
  have hns : '/' ∉ p ++ suffixFor num e ov := by
    intro hm
    rw [List.mem_append] at hm
    rcases hm with hm | hm
    · exact hpns hm
    · exact slash_not_in_suffixFor num e ov hsl hm
  rw [hsnd, basename_dirPart_append _ _ hns, utf8Len_append]
  have hlen : utf8Len p = (maxSafePrefixBytes budget e ov num).toNat := by
    have h1 : utf8Len p = ((utf8Encode (basename w)).take
        (maxSafePrefixBytes budget e ov num).toNat).length := by
      rw [hcut]
      rfl
    rw [h1, List.length_take]
    have h2 : (maxSafePrefixBytes budget e ov num).toNat ≤ (utf8Encode (basename w)).length := by
      have : ((utf8Encode (basename w)).length : Int) = (utf8Len (basename w) : Int) := by
        unfold utf8Len
        norm_num
      omega
    omega
  omega

/-! ## NameBuilder structure lemmas -/

/-- The last element of a list of segments (empty for the empty list). -/
def lastStr : List Str → Str
  | [] => []
  | [x] => x
  | _ :: y :: t => lastStr (y :: t)

theorem splitSep_ne_nil (s : Str) : splitSep s ≠ [] := by
  cases s with
  | nil => simp [splitSep]
  | cons c rest =>
    unfold splitSep
    cases h : splitSep rest with
    | nil => simp
    | cons a t => split_ifs <;> simp

theorem rawNames_ne_nil (d : Data) : rawNames d ≠ [] := by
  unfold rawNames
  split_ifs with h
  · intro hc
    exact splitSep_ne_nil d.name (List.map_eq_nil_iff.mp hc)
  · simp

theorem setLast_decomp (f : Str → Str) (l : List Str) (h : l ≠ []) :
    setLast f l = l.dropLast ++ [f (lastStr l)] := by
  induction l with
  | nil => cases h rfl
  | cons x t ih =>
    cases t with
    | nil => rfl
    | cons y r =>
      show x :: setLast f (y :: r) = (x :: y :: r).dropLast ++ [f (lastStr (x :: y :: r))]
      rw [ih (by simp)]
      rfl

theorem dropLast_append_lastStr (l : List Str) (h : l ≠ []) :
    l.dropLast ++ [lastStr l] = l := by
  induction l with
  | nil => cases h rfl
  | cons x t ih =>
    cases t with
    | nil => rfl
    | cons y r =>
      show (x :: y :: r).dropLast ++ [lastStr (x :: y :: r)] = x :: y :: r
      have : lastStr (x :: y :: r) = lastStr (y :: r) := rfl
      rw [this, show (x :: y :: r).dropLast = x :: (y :: r).dropLast from rfl]
      rw [List.cons_append, ih (by simp)]

theorem lastStr_append_singleton (l : List Str) (x : Str) :
    lastStr (l ++ [x]) = x := by
  induction l with
  | nil => rfl
  | cons c t ih =>
    cases t with
    | nil => rfl
    | cons y r =>
      show lastStr ((y :: r) ++ [x]) = x
      exact ih

theorem setLast_ne_nil (f : Str → Str) (l : List Str) (h : l ≠ []) :
    setLast f l ≠ [] := by
  rw [setLast_decomp f l h]
  simp

/-- Characters surviving sanitization are safe. -/
theorem sanitize_safe (s : Str) : ∀ c ∈ sanitize s, ¬ unsafeChar c := by
  intro c hc
  unfold sanitize at hc
  have := List.of_mem_filter hc
  simpa using this

/-- Membership in a separator-join comes from the separator or a piece. -/
theorem mem_joinList (sep : Str) (l : List Str) (c : Char) (hc : c ∈ joinList sep l) :
    c ∈ sep ∨ ∃ s ∈ l, c ∈ s := by
  induction l with
  | nil => cases hc
  | cons x t ih =>
    cases t with
    | nil =>
      right
      exact ⟨x, List.mem_singleton.mpr rfl, hc⟩
    | cons y r =>
      unfold joinList at hc
      rcases List.mem_append.mp hc with hm | hm
      · rcases List.mem_append.mp hm with hm | hm
        · right
          exact ⟨x, List.mem_cons_self x _, hm⟩
        · left
          exact hm
      · rcases ih hm with hm | ⟨s, hs, hcs⟩
        · left
          exact hm
        · right
          exact ⟨s, List.mem_cons_of_mem _ hs, hcs⟩

theorem filter_all {α : Type} (p : α → Bool) (l : List α) :
    (l.filter p).all p = true := by
  rw [List.all_eq_true]
  intro a ha
  exact List.of_mem_filter ha

theorem mem_setLast (f : Str → Str) (l : List Str) (s : Str) (hs : s ∈ setLast f l) :
    s ∈ l ∨ ∃ t ∈ l, s = f t := by
  induction l with
  | nil => cases hs
  | cons x t ih =>
    cases t with
    | nil =>
      rcases List.mem_singleton.mp hs with rfl
      exact Or.inr ⟨x, List.mem_singleton.mpr rfl, rfl⟩
    | cons y r =>
      rcases List.mem_cons.mp hs with rfl | hs
      · exact Or.inl (List.mem_cons_self _ _)
      · rcases ih hs with hs | ⟨u, hu, rfl⟩
        · exact Or.inl (List.mem_cons_of_mem _ hs)
        · exact Or.inr ⟨u, List.mem_cons_of_mem _ hu, rfl⟩

theorem append_safe (a b : Str) (ha : ∀ c ∈ a, ¬ unsafeChar c)
    (hb : ∀ c ∈ b, ¬ unsafeChar c) : ∀ c ∈ a ++ b, ¬ unsafeChar c := by
  intro c hc
  rcases List.mem_append.mp hc with hc | hc
  · exact ha c hc
  · exact hb c hc

theorem attempt_digits_safe (k : Nat) : ∀ c ∈ natDigits k, ¬ unsafeChar c := by
  intro c hc
  have hd := natDigits_digits k c hc
  intro hu
  unfold unsafeChar at hu
  rcases hu with rfl | rfl | rfl | rfl | rfl | rfl | rfl | rfl | rfl | h | h
  · exact absurd hd (by decide)
  · exact absurd hd (by decide)
  · exact absurd hd (by decide)
  · exact absurd hd (by decide)
  · exact absurd hd (by decide)
  · exact absurd hd (by decide)
  · exact absurd hd (by decide)
  · exact absurd hd (by decide)
  · exact absurd hd (by decide)
  · omega
  · omega

theorem rawNames_safe (d : Data) : ∀ s ∈ rawNames d, ∀ c ∈ s, ¬ unsafeChar c := by
  intro s hs c hc
  unfold rawNames at hs
  split_ifs at hs with h
  · obtain ⟨x, _, rfl⟩ := List.mem_map.mp hs
    exact sanitize_safe _ c hc
  · rcases List.mem_singleton.mp hs with rfl
    rcases mem_joinList _ _ c hc with hm | ⟨t, ht, hct⟩
    · have hsep : ∀ x ∈ RUNNABLE_SEPARATOR, ¬ unsafeChar x := by decide
      exact hsep c hm
    · obtain ⟨v, _, rfl⟩ := List.mem_map.mp ht
      exact sanitize_safe _ c hct

theorem namesFailed_safe (d : Data) : ∀ s ∈ namesFailed d, ∀ c ∈ s, ¬ unsafeChar c := by
  intro s hs
  unfold namesFailed at hs
  split_ifs at hs with hf
  · rcases mem_setLast _ _ _ hs with hs | ⟨t, ht, rfl⟩
    · exact rawNames_safe d s hs
    · exact append_safe _ _ (rawNames_safe d t ht) (by decide)
  · exact rawNames_safe d s hs

theorem namesWithMarkers_safe (d : Data) :
    ∀ s ∈ namesWithMarkers d, ∀ c ∈ s, ¬ unsafeChar c := by
  intro s hs
  unfold namesWithMarkers at hs
  split_ifs at hs with ha
  · rcases mem_setLast _ _ _ hs with hs | ⟨t, ht, rfl⟩
    · exact namesFailed_safe d s hs
    · exact append_safe _ _
        (append_safe _ _
          (append_safe _ _ (namesFailed_safe d t ht) (by decide))
          (attempt_digits_safe _))
        (by decide)
  · exact namesFailed_safe d s hs

theorem namesFailed_ne_nil (d : Data) : namesFailed d ≠ [] := by
  unfold namesFailed
  split_ifs with hf
  · exact setLast_ne_nil _ _ (rawNames_ne_nil d)
  · exact rawNames_ne_nil d

theorem namesWithMarkers_ne_nil (d : Data) : namesWithMarkers d ≠ [] := by
  unfold namesWithMarkers
  split_ifs with ha
  · exact setLast_ne_nil _ _ (namesFailed_ne_nil d)
  · exact namesFailed_ne_nil d

/-! ## Claims -/

/-- C1: with overwrite off, if the canonical path and its " (1)".." (N-1)"
variants all exist, the " (N)" variant is free, creating it succeeds and the
basename fits the length budget at every probed suffix, then the resolver
returns the canonical name with suffix " (N)" and creates an empty file
there, leaving every previously existing file unmodified (the final file
list is the old list with the single new reservation appended). -/
theorem c1_dedup_returns_nth (N fuel : Nat) (oracle : Oracle) (w e : Str) (sys : Sys)
    (_hN : 1 ≤ N)
    (hex : ∀ i, i < N → pathExistsB sys.files (w ++ suffixFor i e false) = true)
    (hfree : pathExistsB sys.files (w ++ suffixFor N e false) = false)
    (hok : oracle (w ++ suffixFor N e false) = none)
    (hfit : (utf8Len (basename w) : Int)
      ≤ (sys.maxSafeBytes : Int) - jsLength (markerStr N ++ '.' :: e))
    (hfuel : N < fuel) :
    ensureSafePath oracle w e false 0 sys fuel
      = some (Except.ok (w ++ suffixFor N e false),
          ⟨sys.files ++ [(w ++ suffixFor N e false, ([] : Str))], sys.maxSafeBytes⟩) :=
  dedup_reaches_free N N 0 fuel oracle w e sys (by omega)
    (fun i _ h2 => hex i h2) hfree hok hfit hfuel

/-- C1 witness: two prior screenshots "dir/shot.png" and "dir/shot (1).png";
the third run reserves "dir/shot (2).png" and appends it to the file list. -/
theorem c1_dedup_returns_nth_witness :
    (∀ i, i < 2 → pathExistsB
        [("dir/shot.png".data, ([] : Str)), ("dir/shot (1).png".data, ([] : Str))]
        ("dir/shot".data ++ suffixFor i "png".data false) = true)
    ∧ pathExistsB [("dir/shot.png".data, ([] : Str)), ("dir/shot (1).png".data, ([] : Str))]
        ("dir/shot".data ++ suffixFor 2 "png".data false) = false
    ∧ ensureSafePath (fun _ => none) "dir/shot".data "png".data false 0
        ⟨[("dir/shot.png".data, ([] : Str)), ("dir/shot (1).png".data, ([] : Str))], 254⟩ 3
      = some (Except.ok ("dir/shot".data ++ suffixFor 2 "png".data false),
          ⟨[("dir/shot.png".data, ([] : Str)), ("dir/shot (1).png".data, ([] : Str))]
            ++ [("dir/shot".data ++ suffixFor 2 "png".data false, ([] : Str))], 254⟩) :=
  ⟨by intro i hi; interval_cases i <;> decide, by decide,
   c1_dedup_returns_nth 2 3 (fun _ => none) "dir/shot".data "png".data
     ⟨[("dir/shot.png".data, ([] : Str)), ("dir/shot (1).png".data, ([] : Str))], 254⟩
     (by omega) (by intro i hi; interval_cases i <;> decide) (by decide) rfl (by decide)
     (by omega)⟩

/-- C2 fails as stated: slicing the 251-byte basename "aa…aé" to the
250-byte prefix budget splits the two-byte character 'é'; Node decodes the
dangling lead byte to the three-byte replacement character, so the resulting
basename has 256 bytes, not maxPrefixBytes + suffixLength = 254. -/
theorem c2_trunc_counterexample :
    utf8Len (basename (resolveStep 254 (List.replicate 249 'a' ++ ['é'])
        "png".data false 0).2) = 256
    ∧ maxSafePrefixBytes 254 "png".data false 0 = 250
    ∧ utf8Len (suffixFor 0 "png".data false) = 4
    ∧ (256 : Nat) ≠ 250 + 4 :=
  ⟨by decide, by decide, by decide, by decide⟩

/-- C2 amended: when the byte cut lands on a character boundary (the first
maxSafePrefixBytes bytes of the basename encode a string `p`) and the
extension is slash-free ASCII, the returned path's basename has byte length
exactly maxSafePrefixBytes + suffix byte length (and for ASCII suffixes the
code's UTF-16 measure of the suffix agrees with the spec's byte measure);
when the cut splits a multi-byte character the replacement character may make
the basename longer, as the counterexample shows. -/
theorem c2_trunc_exact_on_boundary (budget : Nat) (w e p : Str) (ov : Bool) (num : Nat)
    (hsl : '/' ∉ e) (hext : ∀ c ∈ e, c.toNat < 0x80)
    (hpb0 : 0 ≤ maxSafePrefixBytes budget e ov num)
    (hlong : maxSafePrefixBytes budget e ov num < (utf8Len (basename w) : Int))
    (hcut : (utf8Encode (basename w)).take (maxSafePrefixBytes budget e ov num).toNat
        = utf8Encode p) :
    utf8Len (basename (resolveStep budget w e ov num).2)
      = (maxSafePrefixBytes budget e ov num).toNat + utf8Len (suffixFor num e ov)
    ∧ (maxSafePrefixBytes budget e ov num : Int)
      = (budget : Int) - utf8Len (suffixFor num e ov) := by
  refine ⟨trunc_exact budget w e p ov num hsl hpb0 hlong hcut, ?_⟩
  unfold maxSafePrefixBytes
  rw [jsLength_ascii _ (suffixFor_ascii num e ov hext),
    utf8Len_ascii _ (suffixFor_ascii num e ov hext)]

/-- C2 witness: a 251-byte ASCII basename cut at 250 bytes on a character
boundary yields a basename of exactly 250 + 4 bytes. -/
theorem c2_trunc_exact_on_boundary_witness :
    ((utf8Encode (basename (List.replicate 251 'a'))).take
        (maxSafePrefixBytes 254 "png".data false 0).toNat
      = utf8Encode (List.replicate 250 'a'))
    ∧ utf8Len (basename (resolveStep 254 (List.replicate 251 'a') "png".data false 0).2)
      = (maxSafePrefixBytes 254 "png".data false 0).toNat
        + utf8Len (suffixFor 0 "png".data false) :=
  ⟨by decide,
   (c2_trunc_exact_on_boundary 254 (List.replicate 251 'a') "png".data
     (List.replicate 250 'a') false 0 (by decide) (by decide) (by decide) (by decide)
       (by decide)).1⟩

/-- C3: with overwrite on, the candidate never carries a duplicate-index
marker: the whole run is independent of the duplicate index `num`, and when
the create attempt succeeds the resolver returns the unsuffixed canonical
path (possibly truncated) whatever `num` and whatever already exists on
disk. -/
theorem c3_overwrite_unsuffixed :
    (∀ (oracle : Oracle) (w e : Str) (num : Nat) (sys : Sys) (fuel : Nat),
      ensureSafePath oracle w e true num sys fuel
        = ensureSafePath oracle w e true 0 sys fuel)
    ∧ (∀ (oracle : Oracle) (w e : Str) (num : Nat) (sys : Sys) (fuel : Nat),
        oracle (truncTo sys.maxSafeBytes w e true num ++ '.' :: e) = none →
        ensureSafePath oracle w e true num sys (fuel + 1)
          = some (Except.ok (truncTo sys.maxSafeBytes w e true num ++ '.' :: e),
              ⟨outputFile sys.files (truncTo sys.maxSafeBytes w e true num ++ '.' :: e),
               sys.maxSafeBytes⟩)) :=
  ⟨fun oracle w e num sys fuel => ensure_overwrite_num fuel oracle w e num sys,
   fun oracle w e num sys fuel hok => ensure_overwrite_success oracle w e num sys fuel hok⟩

/-- C3 witness: at duplicate index 7 over a filesystem that already holds the
canonical file, overwrite still resolves to the unsuffixed "dir/shot.png". -/
theorem c3_overwrite_unsuffixed_witness :
    ensureSafePath (fun _ => none) "dir/shot".data "png".data true 7
        ⟨[("dir/shot.png".data, ([] : Str))], 254⟩ 4
      = some (Except.ok (truncTo 254 "dir/shot".data "png".data true 7 ++ '.' :: "png".data),
          ⟨outputFile [("dir/shot.png".data, ([] : Str))]
            (truncTo 254 "dir/shot".data "png".data true 7 ++ '.' :: "png".data), 254⟩) :=
  c3_overwrite_unsuffixed.2 (fun _ => none) "dir/shot".data "png".data 7
    ⟨[("dir/shot.png".data, ([] : Str))], 254⟩ 3 rfl

/-- C4 fails as stated: when create fails with ENAMETOOLONG while
maxSafePrefixBytes is exactly at the floor (64), the code still recovers
(shrinks the budget from 68 to 67 and retries), ending in a successful
resolution instead of propagating the error as the claim requires for "at or
below the floor". -/
theorem c4_floor_counterexample :
    maxSafePrefixBytes 68 "png".data false 0 = MIN_PREFIX_BYTES
    ∧ (fun p => if 68 ≤ p.length then some ntlCode else none)
        ((resolveStep 68 (List.replicate 70 'a') "png".data false 0).2) = some ntlCode
    ∧ ensureSafePath (fun p => if 68 ≤ p.length then some ntlCode else none)
        (List.replicate 70 'a') "png".data false 0 ⟨[], 68⟩ 3
      = some (Except.ok (List.replicate 63 'a' ++ ".png".data),
          ⟨[(List.replicate 63 'a' ++ ".png".data, ([] : Str))], 67⟩) :=
  ⟨by decide, by decide, by decide⟩

/-- C4 amended: on an ENAMETOOLONG create failure, the resolver recovers
(decrements the budget and retries with the same duplicate index) exactly
when maxSafePrefixBytes is at or above the floor, and propagates the error
(ending in Failed, with no further retry and no budget change) exactly when
maxSafePrefixBytes is strictly below the floor. -/
theorem c4_floor_behavior (oracle : Oracle) (w e : Str) (ov : Bool) (num : Nat)
    (sys : Sys) (fuel : Nat)
    (hnoex : ¬(pathExistsB sys.files (resolveStep sys.maxSafeBytes w e ov num).2 = true
        ∧ ov = false))
    (hntl : oracle (resolveStep sys.maxSafeBytes w e ov num).2 = some ntlCode) :
    ensureSafePath oracle w e ov num sys (fuel + 1)
      = if MIN_PREFIX_BYTES ≤ maxSafePrefixBytes sys.maxSafeBytes e ov num
        then ensureSafePath oracle (resolveStep sys.maxSafeBytes w e ov num).1 e ov num
            ⟨sys.files, sys.maxSafeBytes - 1⟩ fuel
        else some (Except.error ntlCode, sys) := by
  rw [ensureSafePath_succ, if_neg hnoex, hntl]
  dsimp only
  by_cases h : MIN_PREFIX_BYTES ≤ maxSafePrefixBytes sys.maxSafeBytes e ov num
  · rw [if_pos ⟨rfl, h⟩, if_pos h]
  · rw [if_neg (fun hc => h hc.2), if_neg h]

/-- C4 witness: with budget 60 the prefix budget 56 is below the floor, so an
ENAMETOOLONG failure is propagated unrecovered. -/
theorem c4_floor_behavior_witness :
    ((fun _ => some ntlCode : Oracle)
        ((resolveStep 60 "shot".data "png".data false 0).2) = some ntlCode)
    ∧ ensureSafePath (fun _ => some ntlCode) "shot".data "png".data false 0 ⟨[], 60⟩ 3
      = if MIN_PREFIX_BYTES ≤ maxSafePrefixBytes 60 "png".data false 0
        then ensureSafePath (fun _ => some ntlCode)
            (resolveStep 60 "shot".data "png".data false 0).1 "png".data false 0 ⟨[], 59⟩ 2
        else some (Except.error ntlCode, ⟨[], 60⟩) :=
  ⟨rfl,
   c4_floor_behavior (fun _ => some ntlCode) "shot".data "png".data false 0 ⟨[], 60⟩ 2
     (by decide) rfl⟩

/-- C5: the global length budget is non-increasing across any completed run,
and it decreases by exactly one for each ENAMETOOLONG recovery the run
performs (the final budget plus the recovery count equals the initial
budget); threaded state means every later call starts from the decremented
value. -/
theorem c5_budget_monotone_exact (fuel : Nat) (oracle : Oracle) (w e : Str) (ov : Bool)
    (num : Nat) (sys : Sys) (r : Except Str Str) (sys' : Sys)
    (h : ensureSafePath oracle w e ov num sys fuel = some (r, sys')) :
    sys'.maxSafeBytes + ntlCount oracle w e ov num sys fuel = sys.maxSafeBytes
    ∧ sys'.maxSafeBytes ≤ sys.maxSafeBytes :=
  ⟨budget_ntlCount fuel oracle w e ov num sys r sys' h,
   budget_monotone fuel oracle w e ov num sys r sys' h⟩

/-- C5 witness: one recovery during a successful resolution takes the budget
from 68 to 67 = 68 - 1. -/
theorem c5_budget_monotone_exact_witness :
    ensureSafePath (fun p => if 68 ≤ p.length then some ntlCode else none)
        (List.replicate 70 'a') "png".data false 0 ⟨[], 68⟩ 3
      = some (Except.ok (List.replicate 63 'a' ++ ".png".data),
          ⟨[(List.replicate 63 'a' ++ ".png".data, ([] : Str))], 67⟩)
    ∧ (67 + ntlCount (fun p => if 68 ≤ p.length then some ntlCode else none)
        (List.replicate 70 'a') "png".data false 0 ⟨[], 68⟩ 3 = 68
      ∧ 67 ≤ 68) :=
  ⟨by decide,
   c5_budget_monotone_exact 3 (fun p => if 68 ≤ p.length then some ntlCode else none)
     (List.replicate 70 'a') "png".data false 0 ⟨[], 68⟩
     (Except.ok (List.replicate 63 'a' ++ ".png".data))
     ⟨[(List.replicate 63 'a' ++ ".png".data, ([] : Str))], 67⟩ (by decide)⟩

/-- C6 fails in its distinctness part: candidate paths are not always
distinct across duplicate indices.  With basename "aa…a (1)" (250 bytes,
ending in a marker-shaped tail) the unsuffixed candidate at index 0 equals
the truncated candidate at index 1, so the same path is probed twice; a run
over a filesystem holding just that one file accordingly skips to index 2. -/
theorem c6_repeat_counterexample :
    (resolveStep 254 (List.replicate 246 'a' ++ " (1)".data) "png".data false 0).2
      = (resolveStep 254
          (resolveStep 254 (List.replicate 246 'a' ++ " (1)".data) "png".data false 0).1
          "png".data false 1).2
    ∧ ensureSafePath (fun _ => none) (List.replicate 246 'a' ++ " (1)".data) "png".data false 0
        ⟨[((resolveStep 254 (List.replicate 246 'a' ++ " (1)".data) "png".data false 0).2,
            ([] : Str))], 254⟩ 3
      = some (Except.ok (List.replicate 246 'a' ++ " (2).png".data),
          ⟨[((resolveStep 254 (List.replicate 246 'a' ++ " (1)".data) "png".data false 0).2,
              ([] : Str))]
            ++ [(List.replicate 246 'a' ++ " (2).png".data, ([] : Str))], 254⟩) :=
  ⟨by decide, by decide⟩

/-- C6 amended: the recursion always terminates in Resolved or Failed — for
every finite filesystem and every path-determined oracle there is enough
fuel — because the duplicate index strictly increases in the exists-branch
and the budget strictly decreases in the NameTooLong branch; candidate paths
for distinct positive duplicate indices are distinct (for the unmarked index
0, the candidate may coincide with one later marked candidate when
truncation strips a marker-shaped tail, as the counterexample shows). -/
theorem c6_terminates_distinct_indices :
    (∀ (oracle : Oracle) (w e : Str) (ov : Bool) (num : Nat) (sys : Sys),
      ∃ fuel, (ensureSafePath oracle w e ov num sys fuel).isSome = true)
    ∧ (∀ (e pre1 pre2 : Str) (n m : Nat), 1 ≤ n → 1 ≤ m → n ≠ m →
        pre1 ++ markerStr n ++ '.' :: e ≠ pre2 ++ markerStr m ++ '.' :: e) :=
  ⟨fun oracle w e ov num sys =>
    ⟨potential e num sys + 1, ensureSafePath_total _ oracle w e ov num sys (by omega)⟩,
   fun e pre1 pre2 n m _ _ hnm => marker_paths_distinct e pre1 pre2 n m hnm⟩

/-- C6 witness: the marked candidates for indices 1 and 2 over the same
prefix differ. -/
theorem c6_terminates_distinct_indices_witness :
    "a".data ++ markerStr 1 ++ '.' :: "png".data
      ≠ "a".data ++ markerStr 2 ++ '.' :: "png".data :=
  c6_terminates_distinct_indices.2 "png".data "a".data "a".data 1 2
    (by omega) (by omega) (by omega)

/-- C7: the failure and attempt markers land on the last name segment only,
in that order: the built names are the raw names with the final segment
extended by " (failed)" when the test failed, then by " (attempt N)" with
N = testAttemptIndex + 1 when testAttemptIndex > 0. -/
theorem c7_markers_on_last_segment (d : Data) :
    namesWithMarkers d
      = (rawNames d).dropLast
        ++ [lastStr (rawNames d)
            ++ (if d.testFailure then " (failed)".data else [])
            ++ (if 0 < d.testAttemptIndex
                then " (attempt ".data ++ natDigits (d.testAttemptIndex + 1) ++ [')']
                else [])] := by
  have hne := rawNames_ne_nil d
  unfold namesWithMarkers namesFailed
  by_cases hf : d.testFailure = true <;> by_cases ha : 0 < d.testAttemptIndex
  · rw [if_pos ha, if_pos hf]
    rw [setLast_decomp _ _ (setLast_ne_nil _ _ hne), setLast_decomp _ _ hne,
      List.dropLast_concat, lastStr_append_singleton, if_pos hf, if_pos ha]
    simp [List.append_assoc]
  · rw [if_neg ha, if_pos hf, setLast_decomp _ _ hne, if_pos hf, if_neg ha]
    simp
  · have hf' : d.testFailure = false := by
      cases hq : d.testFailure
      · rfl
      · exact absurd hq hf
    rw [if_pos ha, if_neg (by rw [hf']; simp : ¬ d.testFailure = true),
      setLast_decomp _ _ hne, if_neg (by rw [hf']; simp : ¬ d.testFailure = true), if_pos ha]
    simp
  · have hf' : d.testFailure = false := by
      cases hq : d.testFailure
      · rfl
      · exact absurd hq hf
    rw [if_neg ha, if_neg (by rw [hf']; simp : ¬ d.testFailure = true),
      if_neg (by rw [hf']; simp : ¬ d.testFailure = true), if_neg ha]
    rw [List.append_nil, List.append_nil, dropLast_append_lastStr _ hne]

/-- C8 fails as stated: specName-derived directory segments are split but
never sanitized.  With specName "a:b" the produced path keeps the unsafe
":" that sanitization would remove. -/
theorem c8_unsanitized_counterexample :
    getPathWithoutExt "root".data (⟨"a:b".data, "shot".data, [], false, 0⟩ : Data)
      = "root/a:b/shot".data
    ∧ ':' ∈ getPathWithoutExt "root".data (⟨"a:b".data, "shot".data, [], false, 0⟩ : Data)
    ∧ sanitizeToString (JsVal.str "a:b".data) = "ab".data
    ∧ "a:b".data ≠ "ab".data :=
  ⟨by decide, by decide, by decide, by decide⟩

/-- C8 amended: the path fed to the resolver joins the output root, then the
specName segments split on path separators (passed through unsanitized),
then all but the last built name segment, then the final name segment; the
name/title segments themselves contain no unsafe character. -/
theorem c8_dir_segment_structure (folder : Str) (d : Data) :
    getPathWithoutExt folder d
      = pathJoin ((folder :: (splitSep d.specName ++ (namesWithMarkers d).dropLast))
          ++ [lastStr (namesWithMarkers d)])
    ∧ (namesWithMarkers d).all
        (fun s => s.all (fun c => !decide (unsafeChar c))) = true := by
  constructor
  · have hl : (folder :: (splitSep d.specName ++ (namesWithMarkers d).dropLast))
        ++ [lastStr (namesWithMarkers d)]
        = folder :: (splitSep d.specName ++ namesWithMarkers d) := by
      rw [List.cons_append, List.append_assoc,
        dropLast_append_lastStr _ (namesWithMarkers_ne_nil d)]
    rw [hl]
    rfl
  · rw [List.all_eq_true]
    intro s hs
    rw [List.all_eq_true]
    intro c hc
    simpa using namesWithMarkers_safe d s hs c hc

/-- C9: sanitization of a title is total and safe: whatever JavaScript value
is passed (string, number, null or undefined, empty or not), it is
stringified first and the result contains no unsafe filesystem character. -/
theorem c9_sanitize_total_safe (v : JsVal) :
    (sanitizeToString v).all (fun c => !decide (unsafeChar c)) = true := by
  unfold sanitizeToString sanitize
  exact filter_all _ _

/-- C10: a resolve call that ends in a propagated error after at least one
NameTooLong recovery leaves the global budget at its entry value minus the
number of recoveries — the decrements are not rolled back and later calls
observe the reduced value. -/
theorem c10_error_keeps_decrements (fuel : Nat) (oracle : Oracle) (w e : Str)
    (ov : Bool) (num : Nat) (sys : Sys) (code : Str) (sys' : Sys)
    (h : ensureSafePath oracle w e ov num sys fuel = some (Except.error code, sys'))
    (hk : 1 ≤ ntlCount oracle w e ov num sys fuel) :
    sys'.maxSafeBytes = sys.maxSafeBytes - ntlCount oracle w e ov num sys fuel
    ∧ sys'.maxSafeBytes < sys.maxSafeBytes := by
  have := budget_ntlCount fuel oracle w e ov num sys (Except.error code) sys' h
  omega

/-- C10 witness: a run that recovers once (68 → 67) and then fails leaves
the budget at 67 = 68 - 1. -/
theorem c10_error_keeps_decrements_witness :
    ensureSafePath (fun _ => some ntlCode) (List.replicate 70 'a') "png".data false 0
        ⟨[], 68⟩ 2
      = some (Except.error ntlCode, ⟨[], 67⟩)
    ∧ 1 ≤ ntlCount (fun _ => some ntlCode) (List.replicate 70 'a') "png".data false 0
        ⟨[], 68⟩ 2
    ∧ ((67 : Nat) = 68 - ntlCount (fun _ => some ntlCode) (List.replicate 70 'a')
        "png".data false 0 ⟨[], 68⟩ 2
      ∧ (67 : Nat) < 68) :=
  ⟨by decide, by decide,
   c10_error_keeps_decrements 2 (fun _ => some ntlCode) (List.replicate 70 'a')
     "png".data false 0 ⟨[], 68⟩ ntlCode ⟨[], 67⟩ (by decide) (by decide)⟩

end CypressFs
